import Mathlib

/-!
Verification development for the composite Hilbert-space assembly and
dressed-spectrum engine exercised by this repository's notebooks.  The
repository itself contains only illustrative notebooks; the engine they
call (tensor-product assembly, interaction embedding, diagonalization,
bare/dressed lookup, parameter sweep) is modelled here from the
specification, and the notebooks' recorded outputs serve as concrete
cross-checks.
-/

/-- Exact rational complex numbers, standing in for the complex matrix
entries of the engine (floating-point entries are modelled exactly). -/
@[ext]
structure RC where
  re : ℚ
  im : ℚ
deriving DecidableEq

instance : Zero RC := ⟨⟨0, 0⟩⟩

instance : One RC := ⟨⟨1, 0⟩⟩

/-- Addition of rational complex numbers. -/
def RC.add (x y : RC) : RC := ⟨x.re + y.re, x.im + y.im⟩

/-- Multiplication of rational complex numbers. -/
def RC.mul (x y : RC) : RC := ⟨x.re * y.re - x.im * y.im, x.re * y.im + x.im * y.re⟩

/-- Complex conjugation. -/
def RC.conj (x : RC) : RC := ⟨x.re, -x.im⟩

/-- Embedding of a rational (real) scalar. -/
def RC.ofRat (q : ℚ) : RC := ⟨q, 0⟩

instance : Add RC := ⟨RC.add⟩

instance : Mul RC := ⟨RC.mul⟩

/-! ### Bare product index ↔ flat index conversion

Modelled from the spec: the bare product index `(n_1, ..., n_k)` maps to
the flat index `f = Σ n_i · Π_{j>i} d_j` (row-major, last index fastest)
and back; the conversion routines live in the scqubits library, which is
not part of this repository. -/

/-- Modelled from the spec: row-major conversion of a bare product index
tuple to a flat tensor-product index (missing from the repository; only
notebook callers of the lookup machinery are present). -/
def bareToFlat : List Nat → List Nat → Nat
  | _ :: ds, n :: ns => n * ds.prod + bareToFlat ds ns
  | _, _ => 0

/-- Modelled from the spec: inverse conversion of a flat index back to the
bare product index tuple, by successive division by trailing dimension
products. -/
def flatToBare : List Nat → Nat → List Nat
  | [], _ => []
  | _ :: ds, f => f / ds.prod :: flatToBare ds (f % ds.prod)

/-- A tuple is a valid bare product index for the given dimension list when
it has the same length and each component is below its dimension. -/
def validTupleB : List Nat → List Nat → Bool
  | [], [] => true
  | d :: ds, n :: ns => decide (n < d) && validTupleB ds ns
  | _, _ => false

/-! ### Matrices over the composite space

Matrices are entry functions; dimensions are tracked separately and all
statements are restricted to in-range indices. -/

/-- A matrix over the composite space, as an entry function. -/
abbrev Mat := Nat → Nat → RC

/-- Entry-wise sum of a list of matrices. -/
def sumMats : List Mat → Mat
  | [] => fun _ _ => 0
  | M :: Ms => fun i j => M i j + sumMats Ms i j

/-- Conjugate transpose. -/
def dagger (M : Mat) : Mat := fun i j => (M j i).conj

/-- The identity matrix (of any tracked size). -/
def idMat : Mat := fun i j => if i = j then 1 else 0

/-- Diagonal matrix holding the given (real) values. -/
def diagMat (es : List ℚ) : Mat := fun i j => if i = j then RC.ofRat (es.getD i 0) else 0

/-- Modelled from the spec: a subsystem descriptor, exposing its truncated
dimension and its bare eigenvalues (the subsystem's own physics is an
external collaborator and is consumed only through this interface). -/
structure Subsystem where
  dim : Nat
  bareEvals : List ℚ

/-- The dimension list of an ordered subsystem sequence. -/
def dimsOf (subs : List Subsystem) : List Nat := subs.map Subsystem.dim

/-- Modelled from the spec: Kronecker product of identity factors, one per
listed dimension (used for identity padding in operator embedding). -/
def kronIdent : List Nat → Mat
  | [] => fun _ _ => 1
  | _ :: ds => fun i j =>
      (if i / ds.prod = j / ds.prod then (1 : RC) else 0) *
        kronIdent ds (i % ds.prod) (j % ds.prod)

/-- Modelled from the spec: the Operator Embedder, lifting a subsystem
local operator at ordinal position `pos` into the composite space by
Kronecker-identity padding (the embedder itself is part of the scqubits
library and absent from this repository). -/
def embedAt : List Nat → Nat → Mat → Mat
  | [], _, _ => fun _ _ => 1
  | _ :: ds, 0, M => fun i j =>
      M (i / ds.prod) (j / ds.prod) * kronIdent ds (i % ds.prod) (j % ds.prod)
  | _ :: ds, k + 1, M => fun i j =>
      (if i / ds.prod = j / ds.prod then (1 : RC) else 0) *
        embedAt ds k M (i % ds.prod) (j % ds.prod)

/-- The embedded bare Hamiltonian of each subsystem, in composite order,
starting at ordinal position `pos`. -/
def embedAll (dims : List Nat) (pos : Nat) : List Subsystem → List Mat
  | [] => []
  | s :: rest => embedAt dims pos (diagMat s.bareEvals) :: embedAll dims (pos + 1) rest

/-- Modelled from the spec: `bare_hamiltonian()` of the HilbertSpace
Assembler, the sum of the embedded subsystem bare Hamiltonians (each
diagonal in its own eigenbasis). -/
def bare_hamiltonian (subs : List Subsystem) : Mat :=
  sumMats (embedAll (dimsOf subs) 0 subs)

/-- Sum over subsystems of the bare eigenvalue selected by the
corresponding component of a bare product index tuple. -/
def bareEnergySum (subs : List Subsystem) (ns : List Nat) : ℚ :=
  (List.zipWith (fun (s : Subsystem) n => s.bareEvals.getD n 0) subs ns).sum

/-! ### Interaction terms and the full Hamiltonian -/

/-- Modelled from the spec: matrix product over the composite space of
tracked dimension `D`. -/
def matMulD (D : Nat) (A B : Mat) : Mat :=
  fun i j => ((List.range D).map fun k => A i k * B k j).foldr (fun x acc => x + acc) 0

/-- Modelled from the spec: the closed expression-tree type for
expression-mode interaction terms (leaf = an already-embedded named
operator; nodes = add, multiply, conjugate-transpose, scalar strength). -/
inductive OpExpr where
  | lift (M : Mat)
  | add (a b : OpExpr)
  | mul (a b : OpExpr)
  | dag (a : OpExpr)
  | smul (s : RC) (a : OpExpr)

/-- Evaluation of an interaction expression to a composite-space matrix. -/
def OpExpr.eval (D : Nat) : OpExpr → Mat
  | .lift M => M
  | .add a b => fun i j => a.eval D i j + b.eval D i j
  | .mul a b => matMulD D (a.eval D) (b.eval D)
  | .dag a => dagger (a.eval D)
  | .smul s a => fun i j => s * a.eval D i j

/-- The local operator assigned to subsystem slot `k` by a product-mode
operator list, defaulting to the identity for unlisted slots. -/
def slotOp (ops : List (Nat × Mat)) (k : Nat) : Mat :=
  match ops.find? (fun o => o.1 == k) with
  | some o => o.2
  | none => idMat

/-- Modelled from the spec: product-mode embedding, the Kronecker product
of the listed local operators placed directly in their multi-index slots
(identity padding elsewhere), starting from slot `k`. -/
def kronSlots (ops : List (Nat × Mat)) : List Nat → Nat → Mat
  | [], _ => fun _ _ => 1
  | _ :: ds, k => fun i j =>
      slotOp ops k (i / ds.prod) (j / ds.prod) *
        kronSlots ops ds (k + 1) (i % ds.prod) (j % ds.prod)

/-- Modelled from the spec: the two construction modes of an interaction
term body — product mode (strength times listed operators) or expression
mode (expression tree over embedded named operators). -/
inductive TermBody where
  | product (g : RC) (ops : List (Nat × Mat))
  | expr (e : OpExpr)

/-- Modelled from the spec: an interaction term with its optional
Hermitian-conjugate augmentation flag. -/
structure InteractionTerm where
  body : TermBody
  add_hc : Bool

/-- Modelled from the spec: the HilbertSpace Assembler's state — the
ordered subsystem list and the interaction-term list. -/
structure HilbertSpace where
  subsystems : List Subsystem
  interaction_list : List InteractionTerm

/-- The composite dimension list. -/
def HilbertSpace.dims (hs : HilbertSpace) : List Nat := dimsOf hs.subsystems

/-- The total composite dimension `D = Π d_i`. -/
def HilbertSpace.dimension (hs : HilbertSpace) : Nat := hs.dims.prod

/-- The base matrix of an interaction-term body (before any Hermitian
conjugate augmentation). -/
def termBase (hs : HilbertSpace) : TermBody → Mat
  | .product g ops => fun i j => g * kronSlots ops hs.dims 0 i j
  | .expr e => e.eval hs.dimension

/-- Modelled from the spec: `evaluate()` of an interaction term — the base
matrix plus, when the `add_hc` flag is set, its Hermitian conjugate. -/
def evaluateTerm (hs : HilbertSpace) (t : InteractionTerm) : Mat :=
  fun i j =>
    termBase hs t.body i j + (if t.add_hc then (termBase hs t.body j i).conj else 0)

/-- The dressed Hamiltonian matrix before the Hermiticity check: bare
Hamiltonian plus the sum of the evaluated interaction terms. -/
def raw_hamiltonian (hs : HilbertSpace) : Mat :=
  (hs.interaction_list.map (evaluateTerm hs)).foldl
    (fun acc M => fun i j => acc i j + M i j) (bare_hamiltonian hs.subsystems)

/-- The numerical Hermiticity tolerance of the spec, `1e-10`, as an exact
rational. -/
def hermTol : ℚ := 1 / 10 ^ 10

/-- Executable check that a matrix is Hermitian within tolerance on the
`D × D` range. -/
def hermCheck (D : Nat) (tol : ℚ) (M : Mat) : Bool :=
  (List.range D).all fun i => (List.range D).all fun j =>
    decide (|(M i j).re - (M j i).re| ≤ tol) && decide (|(M i j).im + (M j i).im| ≤ tol)

/-- Modelled from the spec: `hamiltonian()` of the HilbertSpace Assembler —
bare plus interactions, raising a construction error (never silently
truncating) if the built matrix violates Hermiticity beyond tolerance. -/
def hamiltonian (hs : HilbertSpace) : Except String Mat :=
  if hermCheck hs.dimension hermTol (raw_hamiltonian hs) then
    .ok (raw_hamiltonian hs)
  else
    .error "ConstructionError: Hamiltonian violates Hermiticity"

/-- Exact Hermiticity of a matrix on the `D × D` range. -/
def hermitianOn (D : Nat) (M : Mat) : Prop :=
  ∀ i, i < D → ∀ j, j < D → M i j = (M j i).conj

/-- Hermiticity within a tolerance on the `D × D` range. -/
def hermitianWithin (D : Nat) (tol : ℚ) (M : Mat) : Prop :=
  ∀ i, i < D → ∀ j, j < D →
    |(M i j).re - (M j i).re| ≤ tol ∧ |(M i j).im + (M j i).im| ≤ tol

/-- The spec's `d = [2, 10]` example subsystems: a qubit with eigenvalues
`∓1/2` and a 10-level oscillator with level spacing `4/5`. -/
def jcSubsystems : List Subsystem :=
  [⟨2, [-(1 / 2 : ℚ), 1 / 2]⟩,
   ⟨10, [0, 4 / 5, 8 / 5, 12 / 5, 16 / 5, 4, 24 / 5, 28 / 5, 32 / 5, 36 / 5]⟩]

/-- The Jaynes-Cummings-style example space of the notebooks: one qubit
with a single product-mode interaction term carrying the Hermitian
conjugate flag. -/
def smOp : Mat := fun i j => if i = 0 ∧ j = 1 then 1 else 0

/-- A concrete HilbertSpace with one `add_hc = true` interaction term. -/
def jcSpace : HilbertSpace :=
  ⟨[⟨2, [0, 1]⟩], [⟨TermBody.product ⟨1 / 10, 0⟩ [(0, smOp)], true⟩]⟩

/-! ### Eigensystem: sorting and clamping -/

/-- Modelled from the spec: result of `eigensystem(evals_count)` — the
retained eigenvalues and the diagnostic flag reporting that the requested
count was reduced to the composite dimension. -/
structure EigenResult where
  evals : List ℚ
  clamped : Bool

/-- Modelled from the spec: `eigensystem(evals_count)` — Hermitian
diagonalization of `hamiltonian()`; the numerical diagonalization itself
is modelled as an oracle list of eigenvalues in original computation
order.  The lowest `min evals_count D` eigenvalues are returned sorted
ascending by a stable sort; a request exceeding `D` is clamped to `D`
with a reported diagnostic, never a hard failure. -/
def eigensystem (D : Nat) (spectrum : List ℚ) (count : Nat) : EigenResult :=
  ⟨(List.insertionSort (· ≤ ·) spectrum).take (min count D), decide (D < count)⟩

/-! ### Dressed/bare lookup table -/

/-- Squared magnitude of a complex amplitude. -/
def normSq (z : RC) : ℚ := z.re * z.re + z.im * z.im

/-- Modelled from the spec: the dominant bare component of a dressed
eigenvector — the bare basis index of largest squared-magnitude overlap
with the eigenvector; on ties the first-computed index is kept. -/
def argmaxOverlap (D : Nat) (v : Nat → RC) : Nat :=
  (List.range D).foldl (fun best b => if normSq (v best) < normSq (v b) then b else best) 0

/-- Modelled from the spec: `generate_lookup()` — the dressed → bare
assignment table, recording for each dressed index below the stored
count the dominant bare component of its eigenvector (the scqubits
lookup generation is absent from this repository; only notebook calls
to it are present). -/
def generate_lookup (D count : Nat) (evecs : Nat → Nat → RC) : List Nat :=
  (List.range count).map fun j => argmaxOverlap D (evecs j)

/-- Modelled from the spec: `bare_index(j)` — the bare product index tuple
assigned to dressed state `j` by the lookup table (`none` when `j` lies
outside the stored spectrum). -/
def bare_index (dims : List Nat) (table : List Nat) (j : Nat) : Option (List Nat) :=
  (table[j]?).map (flatToBare dims)

/-- First position in the assignment table whose flat index decodes to the
queried bare tuple. -/
def firstMatch (dims : List Nat) (t : List Nat) : List Nat → Option Nat
  | [] => none
  | a :: rest =>
      if flatToBare dims a = t then some 0 else (firstMatch dims t rest).map (· + 1)

/-- Modelled from the spec: `dressed_index(t)` — the smallest dressed index
whose dominant bare component equals the queried bare tuple, or `none`
(the recoverable "unassigned bare state" condition) when no dressed
state assigns to it. -/
def dressed_index (dims : List Nat) (table : List Nat) (t : List Nat) : Option Nat :=
  firstMatch dims t table

/-! ### Parameter sweep: failure isolation and frame effect -/

/-- Modelled from the spec: the per-point Sweep record — bare eigenvalues
of each subsystem and the dressed spectrum at that parameter point. -/
structure PointRecord where
  bareSpectra : List (List ℚ)
  dressedEvals : List ℚ

/-- Modelled from the spec: terminal status of a sweep point — `DONE` with
its record, or `FAILED` with the captured error message. -/
inductive PointOutcome where
  | done (r : PointRecord)
  | failed (err : String)

/-- Whether a sweep point ended in the `FAILED` state. -/
def PointOutcome.isFailed : PointOutcome → Bool
  | .done _ => false
  | .failed _ => true

/-- Modelled from the spec: the Sweep Cache driver (the scqubits
`ParameterSweep` implementation is absent from this repository; the
notebooks only construct it).  Every parameter point is computed; a
failure (diagonalization non-convergence or a subsystem-update domain
error) is captured in that point's record and the sweep continues with
the remaining points; the driver is total, so no exception propagates to
the caller. -/
def runSweep (pts : List Nat) (compute : Nat → Except String PointRecord) :
    List PointOutcome :=
  pts.map fun p =>
    match compute p with
    | .ok r => .done r
    | .error e => .failed e

/-- Sweep-level summary: `(done points, failed points)`. -/
def sweepSummary (outs : List PointOutcome) : Nat × Nat :=
  (outs.countP (fun o => !o.isFailed), outs.countP (fun o => o.isFailed))

/-- Whether the compute step of a sweep point fails (diagonalization
non-convergence or a subsystem-update domain error). -/
def sweepPointFails (compute : Nat → Except String PointRecord) (p : Nat) : Bool :=
  match compute p with
  | .ok _ => false
  | .error _ => true

/-- Modelled from the spec: the per-point bare-spectra refresh — only the
subsystems listed as affected by the swept parameter are re-diagonalized
(`recompute`); the stored bare spectrum of every other subsystem is
reused unchanged.  The ordinal position of the first listed subsystem is
`base`. -/
def updateSpectra (affected : List Nat) (recompute : Nat → List ℚ) :
    Nat → List (List ℚ) → List (List ℚ)
  | _, [] => []
  | i, s :: rest =>
      (if affected.contains i then recompute i else s) ::
        updateSpectra affected recompute (i + 1) rest

/-- Modelled from the spec: the bare-spectra storage across a sweep — at
each parameter point the update function runs and only affected
subsystems' spectra are recomputed. -/
def sweepSpectra (affected : List Nat) (recomputeAt : Nat → Nat → List ℚ)
    (pts : List Nat) (init : List (List ℚ)) : List (List ℚ) :=
  pts.foldl (fun spectra p => updateSpectra affected (recomputeAt p) 0 spectra) init

/-! ### Theorems -/

@[simp] theorem RC.zero_re : (0 : RC).re = 0 := rfl

@[simp] theorem RC.zero_im : (0 : RC).im = 0 := rfl

@[simp] theorem RC.one_re : (1 : RC).re = 1 := rfl

@[simp] theorem RC.one_im : (1 : RC).im = 0 := rfl

@[simp] theorem RC.add_re (x y : RC) : (x + y).re = x.re + y.re := rfl

@[simp] theorem RC.add_im (x y : RC) : (x + y).im = x.im + y.im := rfl

@[simp] theorem RC.mul_re (x y : RC) : (x * y).re = x.re * y.re - x.im * y.im := rfl

@[simp] theorem RC.mul_im (x y : RC) : (x * y).im = x.re * y.im + x.im * y.re := rfl

@[simp] theorem RC.conj_re (x : RC) : x.conj.re = x.re := rfl

@[simp] theorem RC.conj_im (x : RC) : x.conj.im = -x.im := rfl

@[simp] theorem RC.ofRat_re (q : ℚ) : (RC.ofRat q).re = q := rfl

@[simp] theorem RC.ofRat_im (q : ℚ) : (RC.ofRat q).im = 0 := rfl

theorem RC.conj_add (x y : RC) : (x + y).conj = x.conj + y.conj := by
  ext
  all_goals simp
  all_goals ring

theorem RC.conj_conj (x : RC) : x.conj.conj = x := by
  ext <;> simp

theorem RC.conj_zero : (0 : RC).conj = 0 := by
  ext <;> simp

theorem RC.conj_ofRat (q : ℚ) : (RC.ofRat q).conj = RC.ofRat q := by
  ext <;> simp

theorem RC.ofRat_add (p q : ℚ) : RC.ofRat (p + q) = RC.ofRat p + RC.ofRat q := by
  ext <;> simp

theorem RC.add_zero (x : RC) : x + 0 = x := by
  ext <;> simp

theorem RC.zero_add (x : RC) : 0 + x = x := by
  ext <;> simp

theorem RC.one_mul (x : RC) : 1 * x = x := by
  ext <;> simp

theorem RC.mul_one (x : RC) : x * 1 = x := by
  ext <;> simp

theorem RC.zero_mul (x : RC) : 0 * x = 0 := by
  ext <;> simp

theorem RC.mul_zero (x : RC) : x * 0 = 0 := by
  ext <;> simp

theorem RC.mul_add (x y z : RC) : x * (y + z) = x * y + x * z := by
  ext
  all_goals simp
  all_goals ring

theorem RC.add_comm (x y : RC) : x + y = y + x := by
  ext
  all_goals simp
  all_goals ring

theorem bareToFlat_lt : ∀ (ds ns : List Nat), (∀ d ∈ ds, 0 < d) →
    validTupleB ds ns = true → bareToFlat ds ns < ds.prod
  | [], [], _, _ => by simp [bareToFlat]
  | [], _ :: _, _, h => by simp [validTupleB] at h
  | _ :: _, [], _, h => by simp [validTupleB] at h
  | d :: ds, n :: ns, hpos, h => by
      rw [validTupleB, Bool.and_eq_true, decide_eq_true_eq] at h
      have hpos' : ∀ a ∈ ds, 0 < a := fun a ha => hpos a (List.mem_cons_of_mem _ ha)
      have ih := bareToFlat_lt ds ns hpos' h.2
      have hP : 0 < ds.prod := List.prod_pos hpos'
      rw [bareToFlat, List.prod_cons]
      calc n * ds.prod + bareToFlat ds ns < n * ds.prod + ds.prod := by omega
        _ = (n + 1) * ds.prod := by ring
        _ ≤ d * ds.prod := Nat.mul_le_mul_right _ h.1

theorem flatToBare_bareToFlat : ∀ (ds ns : List Nat), (∀ d ∈ ds, 0 < d) →
    validTupleB ds ns = true → flatToBare ds (bareToFlat ds ns) = ns
  | [], [], _, _ => rfl
  | [], _ :: _, _, h => by simp [validTupleB] at h
  | _ :: _, [], _, h => by simp [validTupleB] at h
  | d :: ds, n :: ns, hpos, h => by
      rw [validTupleB, Bool.and_eq_true, decide_eq_true_eq] at h
      have hpos' : ∀ a ∈ ds, 0 < a := fun a ha => hpos a (List.mem_cons_of_mem _ ha)
      have hr : bareToFlat ds ns < ds.prod := bareToFlat_lt ds ns hpos' h.2
      have hP : 0 < ds.prod := List.prod_pos hpos'
      have hdiv : (n * ds.prod + bareToFlat ds ns) / ds.prod = n := by
        rw [Nat.mul_comm n ds.prod, Nat.mul_add_div hP, Nat.div_eq_of_lt hr, Nat.add_zero]
      have hmod : (n * ds.prod + bareToFlat ds ns) % ds.prod = bareToFlat ds ns := by
        rw [Nat.mul_comm n ds.prod, Nat.mul_add_mod, Nat.mod_eq_of_lt hr]
      rw [bareToFlat, flatToBare, hdiv, hmod, flatToBare_bareToFlat ds ns hpos' h.2]

theorem validTupleB_flatToBare : ∀ (ds : List Nat) (f : Nat), (∀ d ∈ ds, 0 < d) →
    f < ds.prod → validTupleB ds (flatToBare ds f) = true
  | [], _, _, _ => rfl
  | d :: ds, f, hpos, hf => by
      have hpos' : ∀ a ∈ ds, 0 < a := fun a ha => hpos a (List.mem_cons_of_mem _ ha)
      have hP : 0 < ds.prod := List.prod_pos hpos'
      rw [List.prod_cons] at hf
      have hdivlt : f / ds.prod < d := (Nat.div_lt_iff_lt_mul hP).mpr hf
      have hmodlt : f % ds.prod < ds.prod := Nat.mod_lt _ hP
      rw [flatToBare, validTupleB, Bool.and_eq_true, decide_eq_true_eq]
      exact ⟨hdivlt, validTupleB_flatToBare ds (f % ds.prod) hpos' hmodlt⟩

theorem bareToFlat_flatToBare : ∀ (ds : List Nat) (f : Nat), (∀ d ∈ ds, 0 < d) →
    f < ds.prod → bareToFlat ds (flatToBare ds f) = f
  | [], f, _, hf => by
      rw [List.prod_nil] at hf
      interval_cases f
      rfl
  | d :: ds, f, hpos, hf => by
      have hpos' : ∀ a ∈ ds, 0 < a := fun a ha => hpos a (List.mem_cons_of_mem _ ha)
      have hP : 0 < ds.prod := List.prod_pos hpos'
      have hmodlt : f % ds.prod < ds.prod := Nat.mod_lt _ hP
      rw [flatToBare, bareToFlat, bareToFlat_flatToBare ds (f % ds.prod) hpos' hmodlt,
        Nat.mul_comm, Nat.div_add_mod]

/-- C1: for every positive-dimension list and every valid bare product
index tuple, the row-major flat-index conversion round-trips
(`flatToBare (bareToFlat t) = t`), lands inside `{0, ..., Π d_i - 1}`,
and conversely every flat index below the total dimension comes from a
unique valid tuple (both inverse identities hold), so the map is a
bijection between valid tuples and flat indices. -/
theorem flat_index_bijection (ds ns : List Nat) (hpos : ∀ d ∈ ds, 0 < d)
    (hval : validTupleB ds ns = true) :
    flatToBare ds (bareToFlat ds ns) = ns ∧
    bareToFlat ds ns < ds.prod ∧
    (∀ f, f < ds.prod →
      validTupleB ds (flatToBare ds f) = true ∧ bareToFlat ds (flatToBare ds f) = f) :=
  ⟨flatToBare_bareToFlat ds ns hpos hval, bareToFlat_lt ds ns hpos hval,
    fun f hf => ⟨validTupleB_flatToBare ds f hpos hf, bareToFlat_flatToBare ds f hpos hf⟩⟩

/-- Concrete instance of `flat_index_bijection` at the spec's example
`d = [2, 10]`, `t = (1, 2)`: the flat index is `1 * 10 + 2 = 12` and the
round-trip returns `(1, 2)`. -/
theorem flat_index_bijection_witness :
    (∀ d ∈ [2, 10], 0 < d) ∧ validTupleB [2, 10] [1, 2] = true ∧
    flatToBare [2, 10] (bareToFlat [2, 10] [1, 2]) = [1, 2] ∧
    bareToFlat [2, 10] [1, 2] < ([2, 10] : List Nat).prod ∧
    bareToFlat [2, 10] [1, 2] = 12 := by
  have h := flat_index_bijection [2, 10] [1, 2] (by decide) (by decide)
  exact ⟨by decide, by decide, h.1, h.2.1, by decide⟩

theorem kronIdent_eq : ∀ (ds : List Nat) (i j : Nat), (∀ d ∈ ds, 0 < d) →
    i < ds.prod → j < ds.prod → kronIdent ds i j = if i = j then 1 else 0
  | [], i, j, _, hi, hj => by
      rw [List.prod_nil] at hi hj
      interval_cases i
      interval_cases j
      rfl
  | d :: ds, i, j, hpos, hi, hj => by
      have hpos' : ∀ a ∈ ds, 0 < a := fun a ha => hpos a (List.mem_cons_of_mem _ ha)
      have hP : 0 < ds.prod := List.prod_pos hpos'
      simp only [kronIdent]
      rw [kronIdent_eq ds _ _ hpos' (Nat.mod_lt _ hP) (Nat.mod_lt _ hP)]
      by_cases h1 : i / ds.prod = j / ds.prod
      · by_cases h2 : i % ds.prod = j % ds.prod
        · have hij : i = j := by
            rw [← Nat.div_add_mod i ds.prod, ← Nat.div_add_mod j ds.prod, h1, h2]
          rw [if_pos h1, if_pos h2, if_pos hij, RC.one_mul]
        · have hij : i ≠ j := fun h => h2 (by rw [h])
          rw [if_pos h1, if_neg h2, if_neg hij, RC.mul_zero]
      · have hij : i ≠ j := fun h => h1 (by rw [h])
        rw [if_neg h1, if_neg hij, RC.zero_mul]

theorem embedAt_diag : ∀ (ds : List Nat) (k : Nat) (es : List ℚ) (i j : Nat),
    (∀ d ∈ ds, 0 < d) → k < ds.length → i < ds.prod → j < ds.prod →
    embedAt ds k (diagMat es) i j =
      if i = j then RC.ofRat (es.getD ((flatToBare ds i).getD k 0) 0) else 0
  | [], k, _, _, _, _, hk, _, _ => by simp at hk
  | d :: ds, 0, es, i, j, hpos, _, hi, hj => by
      have hpos' : ∀ a ∈ ds, 0 < a := fun a ha => hpos a (List.mem_cons_of_mem _ ha)
      have hP : 0 < ds.prod := List.prod_pos hpos'
      simp only [embedAt, diagMat, flatToBare, List.getD_cons_zero]
      rw [kronIdent_eq ds _ _ hpos' (Nat.mod_lt _ hP) (Nat.mod_lt _ hP)]
      by_cases h1 : i / ds.prod = j / ds.prod
      · by_cases h2 : i % ds.prod = j % ds.prod
        · have hij : i = j := by
            rw [← Nat.div_add_mod i ds.prod, ← Nat.div_add_mod j ds.prod, h1, h2]
          rw [if_pos h1, if_pos h2, if_pos hij, RC.mul_one]
        · have hij : i ≠ j := fun h => h2 (by rw [h])
          rw [if_pos h1, if_neg h2, if_neg hij, RC.mul_zero]
      · have hij : i ≠ j := fun h => h1 (by rw [h])
        rw [if_neg h1, if_neg hij, RC.zero_mul]
  | d :: ds, k + 1, es, i, j, hpos, hk, hi, hj => by
      have hpos' : ∀ a ∈ ds, 0 < a := fun a ha => hpos a (List.mem_cons_of_mem _ ha)
      have hP : 0 < ds.prod := List.prod_pos hpos'
      have hk' : k < ds.length := by simpa using hk
      simp only [embedAt, flatToBare, List.getD_cons_succ]
      rw [embedAt_diag ds k es _ _ hpos' hk' (Nat.mod_lt _ hP) (Nat.mod_lt _ hP)]
      by_cases h1 : i / ds.prod = j / ds.prod
      · by_cases h2 : i % ds.prod = j % ds.prod
        · have hij : i = j := by
            rw [← Nat.div_add_mod i ds.prod, ← Nat.div_add_mod j ds.prod, h1, h2]
          rw [if_pos h1, if_pos h2, if_pos hij, RC.one_mul, h2]
        · have hij : i ≠ j := fun h => h2 (by rw [h])
          rw [if_pos h1, if_neg h2, if_neg hij, RC.mul_zero]
      · have hij : i ≠ j := fun h => h1 (by rw [h])
        rw [if_neg h1, if_neg hij, RC.zero_mul]

theorem sumMats_embedAll_shift : ∀ (rest : List Subsystem) (d : Nat) (ds : List Nat)
    (k i j : Nat),
    sumMats (embedAll (d :: ds) (k + 1) rest) i j =
      (if i / ds.prod = j / ds.prod then (1 : RC) else 0) *
        sumMats (embedAll ds k rest) (i % ds.prod) (j % ds.prod)
  | [], _, _, _, _, _ => (RC.mul_zero _).symm
  | s :: rest, d, ds, k, i, j => by
      simp only [embedAll, sumMats, embedAt]
      rw [sumMats_embedAll_shift rest d ds (k + 1) i j, RC.mul_add]

theorem bare_hamiltonian_entry : ∀ (subs : List Subsystem) (i j : Nat),
    (∀ d ∈ dimsOf subs, 0 < d) → i < (dimsOf subs).prod → j < (dimsOf subs).prod →
    bare_hamiltonian subs i j =
      if i = j then RC.ofRat (bareEnergySum subs (flatToBare (dimsOf subs) i)) else 0
  | [], i, j, _, hi, hj => by
      simp only [dimsOf, List.map_nil, List.prod_nil] at hi hj
      interval_cases i
      interval_cases j
      rfl
  | s :: rest, i, j, hpos, hi, hj => by
      have hds : dimsOf (s :: rest) = s.dim :: dimsOf rest := rfl
      have hpos' : ∀ a ∈ dimsOf rest, 0 < a := fun a ha =>
        hpos a (hds ▸ List.mem_cons_of_mem _ ha)
      have hP : 0 < (dimsOf rest).prod := List.prod_pos hpos'
      rw [hds, List.prod_cons] at hi hj
      have hmi : i % (dimsOf rest).prod < (dimsOf rest).prod := Nat.mod_lt _ hP
      have hmj : j % (dimsOf rest).prod < (dimsOf rest).prod := Nat.mod_lt _ hP
      have hbody : bare_hamiltonian (s :: rest) i j =
          embedAt (s.dim :: dimsOf rest) 0 (diagMat s.bareEvals) i j +
            sumMats (embedAll (s.dim :: dimsOf rest) 1 rest) i j := rfl
      rw [hbody, sumMats_embedAll_shift rest s.dim (dimsOf rest) 0 i j]
      have hsum : sumMats (embedAll (dimsOf rest) 0 rest) (i % (dimsOf rest).prod)
          (j % (dimsOf rest).prod) =
          bare_hamiltonian rest (i % (dimsOf rest).prod) (j % (dimsOf rest).prod) := rfl
      rw [hsum, bare_hamiltonian_entry rest _ _ hpos' hmi hmj,
        embedAt_diag (s.dim :: dimsOf rest) 0 s.bareEvals i j
          (by rw [← hds]; exact hpos) (by simp) (by rw [List.prod_cons]; exact hi)
          (by rw [List.prod_cons]; exact hj)]
      simp only [flatToBare, List.getD_cons_zero]
      by_cases h1 : i / (dimsOf rest).prod = j / (dimsOf rest).prod
      · by_cases h2 : i % (dimsOf rest).prod = j % (dimsOf rest).prod
        · have hij : i = j := by
            rw [← Nat.div_add_mod i (dimsOf rest).prod, ← Nat.div_add_mod j (dimsOf rest).prod,
              h1, h2]
          rw [if_pos hij, if_pos h1, if_pos h2, if_pos hij, RC.one_mul]
          simp only [bareEnergySum, List.zipWith_cons_cons, List.sum_cons, dimsOf]
          rw [RC.ofRat_add]
        · have hij : i ≠ j := fun h => h2 (by rw [h])
          rw [if_neg hij, if_neg h2, if_neg hij, RC.mul_zero, RC.add_zero]
      · have hij : i ≠ j := fun h => h1 (by rw [h])
        rw [if_neg hij, if_neg h1, RC.zero_mul, if_neg hij, RC.add_zero]

theorem hermitianWithin_of_hermitianOn (D : Nat) (tol : ℚ) (M : Mat) (htol : 0 ≤ tol)
    (h : hermitianOn D M) : hermitianWithin D tol M := by
  intro i hi j hj
  rw [h i hi j hj]
  simp [htol]

theorem hermCheck_of_hermitianWithin (D : Nat) (tol : ℚ) (M : Mat)
    (h : hermitianWithin D tol M) : hermCheck D tol M = true := by
  rw [hermCheck, List.all_eq_true]
  intro i hi
  rw [List.all_eq_true]
  intro j hj
  rw [List.mem_range] at hi hj
  rw [Bool.and_eq_true, decide_eq_true_eq, decide_eq_true_eq]
  exact h i hi j hj

theorem bare_hermitianOn (subs : List Subsystem) (hpos : ∀ d ∈ dimsOf subs, 0 < d) :
    hermitianOn (dimsOf subs).prod (bare_hamiltonian subs) := by
  intro i hi j hj
  rw [bare_hamiltonian_entry subs i j hpos hi hj, bare_hamiltonian_entry subs j i hpos hj hi]
  by_cases hij : i = j
  · rw [if_pos hij, if_pos hij.symm, hij, RC.conj_ofRat]
  · rw [if_neg hij, if_neg (fun h => hij h.symm), RC.conj_zero]

theorem hermitianOn_add (D : Nat) (A B : Mat) (hA : hermitianOn D A)
    (hB : hermitianOn D B) : hermitianOn D (fun i j => A i j + B i j) := by
  intro i hi j hj
  show A i j + B i j = (A j i + B j i).conj
  rw [hA i hi j hj, hB i hi j hj, RC.conj_add]

theorem hermitianOn_evaluateTerm (hs : HilbertSpace) (t : InteractionTerm)
    (hfalse : t.add_hc = false → hermitianOn hs.dimension (termBase hs t.body)) :
    hermitianOn hs.dimension (evaluateTerm hs t) := by
  intro i hi j hj
  have he : ∀ a b, evaluateTerm hs t a b =
      termBase hs t.body a b + (if t.add_hc then (termBase hs t.body b a).conj else 0) :=
    fun a b => rfl
  rw [he i j, he j i]
  cases hhc : t.add_hc with
  | true =>
      rw [if_pos rfl, if_pos rfl, RC.conj_add, RC.conj_conj, RC.add_comm]
  | false =>
      rw [if_neg (by simp), if_neg (by simp), RC.add_zero, RC.add_zero,
        hfalse hhc i hi j hj]

theorem hermitianOn_foldl (D : Nat) : ∀ (Ms : List Mat) (acc : Mat),
    hermitianOn D acc → (∀ M ∈ Ms, hermitianOn D M) →
    hermitianOn D (Ms.foldl (fun a M => fun i j => a i j + M i j) acc)
  | [], acc, hacc, _ => hacc
  | M :: Ms, acc, hacc, hMs => by
      rw [List.foldl_cons]
      exact hermitianOn_foldl D Ms _ (hermitianOn_add D acc M hacc (hMs M (List.mem_cons_self M Ms)))
        (fun N hN => hMs N (List.mem_cons_of_mem _ hN))

theorem raw_hamiltonian_hermitian (hs : HilbertSpace)
    (hpos : ∀ d ∈ hs.dims, 0 < d)
    (hcons : ∀ t ∈ hs.interaction_list, t.add_hc = false →
      hermitianOn hs.dimension (termBase hs t.body)) :
    hermitianOn hs.dimension (raw_hamiltonian hs) := by
  rw [raw_hamiltonian]
  apply hermitianOn_foldl
  · exact bare_hermitianOn hs.subsystems hpos
  · intro M hM
    rw [List.mem_map] at hM
    obtain ⟨t, ht, rfl⟩ := hM
    exact hermitianOn_evaluateTerm hs t (hcons t ht)

/-- C7: for every interaction-term list in which the Hermitian-conjugate
flag is consistently applied (every term built without the flag is itself
Hermitian), `hamiltonian()` succeeds and the dressed Hamiltonian it
returns is Hermitian within the floating tolerance `1e-10`; a violation
would instead be raised as a construction error, never silently
truncated. -/
theorem hamiltonian_hermitian (hs : HilbertSpace)
    (hpos : ∀ d ∈ hs.dims, 0 < d)
    (hcons : ∀ t ∈ hs.interaction_list, t.add_hc = false →
      hermitianOn hs.dimension (termBase hs t.body)) :
    hamiltonian hs = .ok (raw_hamiltonian hs) ∧
    hermitianWithin hs.dimension hermTol (raw_hamiltonian hs) := by
  have hherm : hermitianWithin hs.dimension hermTol (raw_hamiltonian hs) :=
    hermitianWithin_of_hermitianOn _ _ _ (by norm_num [hermTol])
      (raw_hamiltonian_hermitian hs hpos hcons)
  refine ⟨?_, hherm⟩
  rw [hamiltonian, if_pos (hermCheck_of_hermitianWithin _ _ _ hherm)]

/-- C3: for every composite space with positive subsystem dimensions, the
bare Hamiltonian is diagonal — every off-diagonal in-range entry is zero
before any interaction is added — and its diagonal entry at flat index
`i` equals the sum over subsystems of the bare eigenvalue selected by the
corresponding component of the bare product index of `i`. -/
theorem bare_hamiltonian_diagonal (subs : List Subsystem)
    (hpos : ∀ d ∈ dimsOf subs, 0 < d) (i j : Nat)
    (hi : i < (dimsOf subs).prod) (hj : j < (dimsOf subs).prod) :
    (i ≠ j → bare_hamiltonian subs i j = 0) ∧
    bare_hamiltonian subs i i =
      RC.ofRat (bareEnergySum subs (flatToBare (dimsOf subs) i)) := by
  constructor
  · intro hij
    rw [bare_hamiltonian_entry subs i j hpos hi hj, if_neg hij]
  · rw [bare_hamiltonian_entry subs i i hpos hi hi, if_pos rfl]

/-- Concrete instance of `bare_hamiltonian_diagonal` at the spec's example
`d = [2, 10]`: the diagonal entry `E1[1] + E2[2]` sits at flat index
`1 * 10 + 2 = 12`, and an off-diagonal entry is zero. -/
theorem bare_hamiltonian_diagonal_witness :
    (∀ d ∈ dimsOf jcSubsystems, 0 < d) ∧
    (12 : Nat) < (dimsOf jcSubsystems).prod ∧
    bareToFlat [2, 10] [1, 2] = 12 ∧
    bare_hamiltonian jcSubsystems 12 12 = RC.ofRat (1 / 2 + 8 / 5) ∧
    bare_hamiltonian jcSubsystems 12 5 = 0 := by
  have h := bare_hamiltonian_diagonal jcSubsystems (by decide) 12 5 (by decide) (by decide)
  refine ⟨by decide, by decide, by decide, ?_, h.1 (by decide)⟩
  rw [h.2]
  simp only [jcSubsystems, bareEnergySum, dimsOf, flatToBare, List.map_cons, List.map_nil,
    List.prod_cons, List.prod_nil, List.zipWith_cons_cons, List.zipWith_nil_right,
    List.sum_cons, List.sum_nil, List.getD, RC.ofRat]
  norm_num

/-- C2: for every HilbertSpace whose interaction-term list is empty,
`hamiltonian()` returns exactly the same matrix as `bare_hamiltonian()` —
equality is exact, with no numerical tolerance, since both are the same
exact sum of embedded subsystem Hamiltonians. -/
theorem hamiltonian_empty_interactions (subs : List Subsystem) :
    hamiltonian ⟨subs, []⟩ = .ok (bare_hamiltonian subs) := by
  have hchk : hermCheck (dimsOf subs).prod hermTol (bare_hamiltonian subs) = true := by
    by_cases hpos : ∀ d ∈ dimsOf subs, 0 < d
    · exact hermCheck_of_hermitianWithin _ _ _
        (hermitianWithin_of_hermitianOn _ _ _ (by norm_num [hermTol])
          (bare_hermitianOn subs hpos))
    · have h0 : (dimsOf subs).prod = 0 := by
        push_neg at hpos
        obtain ⟨d, hd, hd0⟩ := hpos
        have hz : d = 0 := by omega
        exact List.prod_eq_zero (hz ▸ hd)
      rw [h0]
      rfl
  have e1 : raw_hamiltonian ⟨subs, []⟩ = bare_hamiltonian subs := rfl
  have e2 : HilbertSpace.dimension ⟨subs, []⟩ = (dimsOf subs).prod := rfl
  rw [hamiltonian, e1, e2, if_pos hchk]

/-- C10: a HilbertSpace created with an empty subsystem list still builds:
its composite dimension is `1` and `hamiltonian()` succeeds, returning
the trivial `1 × 1` matrix whose single entry is `0` — matching the
recorded notebook output for `HilbertSpace.create()` with no subsystems. -/
theorem hamiltonian_empty_space :
    hamiltonian ⟨[], []⟩ = .ok (raw_hamiltonian ⟨[], []⟩) ∧
    HilbertSpace.dimension ⟨[], []⟩ = 1 ∧
    raw_hamiltonian ⟨[], []⟩ 0 0 = 0 := by
  refine ⟨?_, rfl, rfl⟩
  have hherm : hermitianOn (HilbertSpace.dimension ⟨[], []⟩) (raw_hamiltonian ⟨[], []⟩) := by
    intro i hi j hj
    have h1 : HilbertSpace.dimension ⟨[], []⟩ = 1 := rfl
    rw [h1] at hi hj
    have hi0 : i = 0 := by omega
    have hj0 : j = 0 := by omega
    subst hi0
    subst hj0
    show (0 : RC) = RC.conj 0
    rw [RC.conj_zero]
  rw [hamiltonian, if_pos (hermCheck_of_hermitianWithin _ _ _
    (hermitianWithin_of_hermitianOn _ _ _ (by norm_num [hermTol]) hherm))]

/-- Concrete instance of `hamiltonian_hermitian`: the example space with a
single Hermitian-conjugate-augmented term builds successfully and its
Hamiltonian is Hermitian within `1e-10`. -/
theorem hamiltonian_hermitian_witness :
    hamiltonian jcSpace = .ok (raw_hamiltonian jcSpace) ∧
    hermitianWithin jcSpace.dimension hermTol (raw_hamiltonian jcSpace) := by
  exact hamiltonian_hermitian jcSpace (by decide)
    (by
      intro t ht hf
      simp only [jcSpace, List.mem_singleton] at ht
      rw [ht] at hf
      exact absurd hf (by decide))

/-- C4: `eigensystem(evals_count)` returns eigenvalues in non-decreasing
order, keeps exactly `min evals_count D` of them (every retained value is
bounded by every discarded one, so they are the lowest), and when
`evals_count` exceeds the composite dimension `D` the count is clamped
to `D` with the diagnostic flag set, so the effective count never
exceeds `D`. -/
theorem eigensystem_sorted_clamped (D count : Nat) (spectrum : List ℚ)
    (hlen : spectrum.length = D) :
    List.Sorted (· ≤ ·) (eigensystem D spectrum count).evals ∧
    (eigensystem D spectrum count).evals.length = min count D ∧
    (eigensystem D spectrum count).evals.length ≤ D ∧
    (D < count → (eigensystem D spectrum count).clamped = true) ∧
    (∀ x ∈ (eigensystem D spectrum count).evals,
      ∀ y ∈ (List.insertionSort (· ≤ ·) spectrum).drop (min count D), x ≤ y) := by
  have hsort : List.Sorted (· ≤ ·) (List.insertionSort (· ≤ ·) spectrum) :=
    List.sorted_insertionSort (· ≤ ·) spectrum
  have hsortlen : (List.insertionSort (· ≤ ·) spectrum).length = D := by
    rw [(List.perm_insertionSort (· ≤ ·) spectrum).length_eq, hlen]
  refine ⟨?_, ?_, ?_, ?_, ?_⟩
  · exact hsort.sublist (List.take_sublist _ _)
  · show ((List.insertionSort (· ≤ ·) spectrum).take (min count D)).length = min count D
    rw [List.length_take, hsortlen]
    omega
  · show ((List.insertionSort (· ≤ ·) spectrum).take (min count D)).length ≤ D
    rw [List.length_take, hsortlen]
    omega
  · intro h
    show decide (D < count) = true
    exact decide_eq_true h
  · have hsplit := List.take_append_drop (min count D) (List.insertionSort (· ≤ ·) spectrum)
    rw [← hsplit] at hsort
    exact (List.pairwise_append.mp hsort).2.2

/-- Concrete instance of `eigensystem_sorted_clamped`: a two-dimensional
composite with oracle spectrum `[3, 1]` and a request for five
eigenvalues is clamped to two, returned sorted. -/
theorem eigensystem_sorted_clamped_witness :
    ([(3 : ℚ), 1] : List ℚ).length = 2 ∧
    List.Sorted (· ≤ ·) (eigensystem 2 [(3 : ℚ), 1] 5).evals ∧
    (eigensystem 2 [(3 : ℚ), 1] 5).evals.length = min 5 2 ∧
    (eigensystem 2 [(3 : ℚ), 1] 5).clamped = true := by
  have h := eigensystem_sorted_clamped 2 5 [(3 : ℚ), 1] (by simp)
  exact ⟨by simp, h.1, h.2.1, h.2.2.2.1 (by omega)⟩

theorem firstMatch_complete (dims : List Nat) (t : List Nat) :
    ∀ (l : List Nat) (k : Nat), k < l.length → flatToBare dims (l.getD k 0) = t →
    ∃ k₀, k₀ ≤ k ∧ firstMatch dims t l = some k₀ ∧ k₀ < l.length ∧
      flatToBare dims (l.getD k₀ 0) = t
  | [], k, hk, _ => absurd hk (by simp)
  | b :: rest, k, hk, hmatch => by
      by_cases hb : flatToBare dims b = t
      · exact ⟨0, Nat.zero_le k, by rw [firstMatch, if_pos hb], by simp, by
          rw [List.getD_cons_zero]; exact hb⟩
      · match k with
        | 0 => exact absurd (by rwa [List.getD_cons_zero] at hmatch) hb
        | k' + 1 =>
            rw [List.getD_cons_succ] at hmatch
            have hk' : k' < rest.length := by simpa using hk
            obtain ⟨k₀, hle, hfm, hlt, hm⟩ :=
              firstMatch_complete dims t rest k' hk' hmatch
            exact ⟨k₀ + 1, by omega, by rw [firstMatch, if_neg hb, hfm, Option.map_some'],
              by simpa using hlt, by rwa [List.getD_cons_succ]⟩

theorem firstMatch_sound (dims : List Nat) (t : List Nat) :
    ∀ (l : List Nat) (k₀ : Nat), firstMatch dims t l = some k₀ →
    k₀ < l.length ∧ flatToBare dims (l.getD k₀ 0) = t ∧
      ∀ k', k' < k₀ → flatToBare dims (l.getD k' 0) ≠ t
  | [], k₀, h => by rw [firstMatch] at h; cases h
  | b :: rest, k₀, h => by
      by_cases hb : flatToBare dims b = t
      · rw [firstMatch, if_pos hb, Option.some_inj] at h
        subst h
        exact ⟨by simp, by rw [List.getD_cons_zero]; exact hb, fun k' hk' => absurd hk' (by omega)⟩
      · rw [firstMatch, if_neg hb] at h
        obtain ⟨k₁, hk₁, rfl⟩ := Option.map_eq_some'.mp h
        obtain ⟨hlt, hm, hmin⟩ := firstMatch_sound dims t rest k₁ hk₁
        refine ⟨by simpa using hlt, by rwa [List.getD_cons_succ], ?_⟩
        intro k' hk'
        match k' with
        | 0 => rw [List.getD_cons_zero]; exact hb
        | k'' + 1 =>
            rw [List.getD_cons_succ]
            exact hmin k'' (by omega)

theorem firstMatch_none (dims : List Nat) (t : List Nat) :
    ∀ l : List Nat, (∀ k', k' < l.length → flatToBare dims (l.getD k' 0) ≠ t) →
    firstMatch dims t l = none
  | [], _ => rfl
  | b :: rest, hnone => by
      have hb : flatToBare dims b ≠ t := by
        have := hnone 0 (by simp)
        rwa [List.getD_cons_zero] at this
      rw [firstMatch, if_neg hb, firstMatch_none dims t rest
        (fun k' hk' => by
          have := hnone (k' + 1) (by simpa using hk')
          rwa [List.getD_cons_succ] at this)]
      rfl

theorem generate_lookup_getD (D count : Nat) (evecs : Nat → Nat → RC) (j : Nat)
    (hj : j < count) :
    (generate_lookup D count evecs).getD j 0 = argmaxOverlap D (evecs j) := by
  have hlen : j < (generate_lookup D count evecs).length := by
    simpa [generate_lookup] using hj
  rw [List.getD_eq_getElem _ _ hlen]
  simp [generate_lookup]

theorem generate_lookup_length (D count : Nat) (evecs : Nat → Nat → RC) :
    (generate_lookup D count evecs).length = count := by
  simp [generate_lookup]

/-- C5: after `generate_lookup()`, for every dressed index `j` that is the
unique arg-max assignee of its bare index — no other dressed
eigenvector's dominant bare component equals `bare_index(j)` — the
round-trip `dressed_index(bare_index(j))` returns `j`. -/
theorem lookup_roundtrip (D count : Nat) (evecs : Nat → Nat → RC) (dims : List Nat)
    (j : Nat) (t : List Nat) (hj : j < count)
    (ht : flatToBare dims (argmaxOverlap D (evecs j)) = t)
    (huniq : ∀ j', j' < count → flatToBare dims (argmaxOverlap D (evecs j')) = t → j' = j) :
    bare_index dims (generate_lookup D count evecs) j = some t ∧
    dressed_index dims (generate_lookup D count evecs) t = some j := by
  have hlen := generate_lookup_length D count evecs
  constructor
  · rw [bare_index, List.getElem?_eq_getElem (by omega),
      ← List.getD_eq_getElem _ 0 (by omega), generate_lookup_getD D count evecs j hj,
      Option.map_some', ht]
  · obtain ⟨k₀, hle, hfm, hlt, hm⟩ := firstMatch_complete dims t
      (generate_lookup D count evecs) j (by omega)
      (by rwa [generate_lookup_getD D count evecs j hj])
    rw [generate_lookup_getD D count evecs k₀ (by omega)] at hm
    have : k₀ = j := huniq k₀ (by omega) hm
    rw [dressed_index, hfm, this]

/-- Concrete instance of `lookup_roundtrip`: two dressed basis states with
identity eigenvectors; dressed state `1` uniquely assigns to bare tuple
`(1)` and the round-trip returns `1`. -/
theorem lookup_roundtrip_witness :
    bare_index [2] (generate_lookup 2 2 (fun j b => if b = j then 1 else 0)) 1 =
      some [1] ∧
    dressed_index [2] (generate_lookup 2 2 (fun j b => if b = j then 1 else 0)) [1] =
      some 1 := by
  have ha0 : argmaxOverlap 2 (fun b => if b = (0 : Nat) then (1 : RC) else 0) = 0 := by
    norm_num [argmaxOverlap, normSq, List.range_succ]
  have ha1 : argmaxOverlap 2 (fun b => if b = (1 : Nat) then (1 : RC) else 0) = 1 := by
    norm_num [argmaxOverlap, normSq, List.range_succ]
  refine lookup_roundtrip 2 2 (fun j b => if b = j then 1 else 0) [2] 1 [1] (by omega)
    (by rw [ha1]; rfl) ?_
  intro j' hj' hmatch
  interval_cases j'
  · rw [ha0] at hmatch
    exact absurd hmatch (by decide)
  · rfl

/-- C6: after `generate_lookup()`, the reverse query policy: if two or
more dressed states have the queried bare index as their dominant bare
component, `dressed_index` returns the smallest such dressed index
(deterministic first-computed-wins tie-break); if no dressed state
assigns to it, `dressed_index` returns the recoverable "unassigned bare
state" value `none` instead of crashing. -/
theorem dressed_index_policy (D count : Nat) (evecs : Nat → Nat → RC) (dims : List Nat)
    (t : List Nat) :
    ((∃ j₁ j₂, j₁ < count ∧ j₂ < count ∧ j₁ ≠ j₂ ∧
        flatToBare dims (argmaxOverlap D (evecs j₁)) = t ∧
        flatToBare dims (argmaxOverlap D (evecs j₂)) = t) →
      ∃ j₀, dressed_index dims (generate_lookup D count evecs) t = some j₀ ∧
        j₀ < count ∧ flatToBare dims (argmaxOverlap D (evecs j₀)) = t ∧
        ∀ j', j' < count → flatToBare dims (argmaxOverlap D (evecs j')) = t → j₀ ≤ j') ∧
    ((∀ j', j' < count → flatToBare dims (argmaxOverlap D (evecs j')) ≠ t) →
      dressed_index dims (generate_lookup D count evecs) t = none) := by
  have hlen := generate_lookup_length D count evecs
  constructor
  · rintro ⟨j₁, j₂, hj₁, hj₂, hne, hm₁, hm₂⟩
    obtain ⟨k₀, hle, hfm, hlt, hm⟩ := firstMatch_complete dims t
      (generate_lookup D count evecs) j₁ (by omega)
      (by rwa [generate_lookup_getD D count evecs j₁ hj₁])
    rw [generate_lookup_getD D count evecs k₀ (by omega)] at hm
    refine ⟨k₀, by rw [dressed_index, hfm], by omega, hm, ?_⟩
    intro j' hj' hm'
    obtain ⟨_, _, hmin⟩ := firstMatch_sound dims t (generate_lookup D count evecs) k₀ hfm
    by_contra hlt'
    exact hmin j' (by omega)
      (by rw [generate_lookup_getD D count evecs j' hj']; exact hm')
  · intro hnone
    rw [dressed_index, firstMatch_none dims t (generate_lookup D count evecs)]
    intro k' hk'
    rw [generate_lookup_getD D count evecs k' (by omega)]
    exact hnone k' (by omega)

/-- Concrete instance of `dressed_index_policy`: two dressed states whose
eigenvectors both have bare index `0` as dominant component — the
reverse query returns the smaller dressed index `0`; the unassigned bare
tuple `(1)` yields `none`. -/
theorem dressed_index_policy_witness :
    dressed_index [2] (generate_lookup 2 2 (fun _ b => if b = 0 then 1 else 0)) [0] =
      some 0 ∧
    dressed_index [2] (generate_lookup 2 2 (fun _ b => if b = 0 then 1 else 0)) [1] =
      none := by
  have ha : argmaxOverlap 2 (fun b => if b = (0 : Nat) then (1 : RC) else 0) = 0 := by
    norm_num [argmaxOverlap, normSq, List.range_succ]
  constructor
  · obtain ⟨j₀, hfm, hj₀, hm, hmin⟩ :=
      (dressed_index_policy 2 2 (fun _ b => if b = 0 then 1 else 0) [2] [0]).1
        ⟨0, 1, by omega, by omega, by omega, by rw [ha]; rfl, by rw [ha]; rfl⟩
    have h0 : j₀ ≤ 0 := hmin 0 (by omega) (by rw [ha]; rfl)
    have hj00 : j₀ = 0 := by omega
    rw [hj00] at hfm
    exact hfm
  · refine (dressed_index_policy 2 2 (fun _ b => if b = 0 then 1 else 0) [2] [1]).2 ?_
    intro j' hj' hmatch
    rw [ha] at hmatch
    exact absurd hmatch (by decide)

/-- C8: for every parameter sweep and every point in it, a point whose
compute step fails (diagonalization non-convergence or a domain error in
the subsystem update) is marked `FAILED` with its error captured in that
point's record, every point whose compute step succeeds is still marked
`DONE` (the sweep continues past failures), the sweep runs every point
(result length = point count, so no exception aborts it), and the
sweep-level summary counts exactly the succeeded and failed points. -/
theorem sweep_failure_isolation (pts : List Nat)
    (compute : Nat → Except String PointRecord) :
    (runSweep pts compute).length = pts.length ∧
    (∀ (k p : Nat), pts[k]? = some p →
      (∀ e, compute p = .error e →
        (runSweep pts compute)[k]? = some (PointOutcome.failed e)) ∧
      (∀ r, compute p = .ok r →
        (runSweep pts compute)[k]? = some (PointOutcome.done r))) ∧
    sweepSummary (runSweep pts compute) =
      (pts.countP (fun p => !sweepPointFails compute p),
       pts.countP (fun p => sweepPointFails compute p)) := by
  have hfail : (fun o => PointOutcome.isFailed o) ∘
      (fun p => match compute p with
        | .ok r => PointOutcome.done r
        | .error e => PointOutcome.failed e) = sweepPointFails compute := by
    funext p
    cases h : compute p with
    | ok r => simp [h, sweepPointFails, PointOutcome.isFailed]
    | error e => simp [h, sweepPointFails, PointOutcome.isFailed]
  refine ⟨by rw [runSweep, List.length_map], ?_, ?_⟩
  · intro k p hk
    constructor
    · intro e he
      rw [runSweep, List.getElem?_map, hk, Option.map_some', he]
    · intro r hr
      rw [runSweep, List.getElem?_map, hk, Option.map_some', hr]
  · rw [sweepSummary, runSweep, List.countP_map, List.countP_map, hfail]
    have hok : ((fun o => !PointOutcome.isFailed o) ∘
        (fun p => match compute p with
          | .ok r => PointOutcome.done r
          | .error e => PointOutcome.failed e)) =
        fun p => !sweepPointFails compute p := by
      funext p
      cases h : compute p with
      | ok r => simp [h, sweepPointFails, PointOutcome.isFailed]
      | error e => simp [h, sweepPointFails, PointOutcome.isFailed]
    rw [hok]

/-- Concrete instance of `sweep_failure_isolation` at the spec's test
scenario: a three-point sweep whose middle point is engineered to fail
convergence completes with points `0` and `2` marked `DONE`, point `1`
marked `FAILED` with the error captured, and summary `(2, 1)`. -/
theorem sweep_failure_isolation_witness :
    (runSweep [0, 1, 2]
        (fun p => if p = 1 then .error "ConvergenceError" else .ok ⟨[[0]], [0]⟩)).length
      = 3 ∧
    (runSweep [0, 1, 2]
        (fun p => if p = 1 then .error "ConvergenceError" else .ok ⟨[[0]], [0]⟩))[0]?
      = some (.done ⟨[[0]], [0]⟩) ∧
    (runSweep [0, 1, 2]
        (fun p => if p = 1 then .error "ConvergenceError" else .ok ⟨[[0]], [0]⟩))[1]?
      = some (.failed "ConvergenceError") ∧
    (runSweep [0, 1, 2]
        (fun p => if p = 1 then .error "ConvergenceError" else .ok ⟨[[0]], [0]⟩))[2]?
      = some (.done ⟨[[0]], [0]⟩) ∧
    sweepSummary (runSweep [0, 1, 2]
        (fun p => if p = 1 then .error "ConvergenceError" else .ok ⟨[[0]], [0]⟩)) =
      (2, 1) := by
  have h := sweep_failure_isolation [0, 1, 2]
    (fun p => if p = 1 then .error "ConvergenceError" else .ok ⟨[[0]], [0]⟩)
  refine ⟨h.1, ?_, ?_, ?_, ?_⟩
  · exact (h.2.1 0 0 rfl).2 ⟨[[0]], [0]⟩ rfl
  · exact (h.2.1 1 1 rfl).1 "ConvergenceError" rfl
  · exact (h.2.1 2 2 rfl).2 ⟨[[0]], [0]⟩ rfl
  · rw [h.2.2]
    rfl

theorem updateSpectra_unaffected (affected : List Nat) (recompute : Nat → List ℚ) :
    ∀ (old : List (List ℚ)) (base i : Nat), affected.contains (base + i) = false →
    (updateSpectra affected recompute base old).getD i [] = old.getD i []
  | [], _, _, _ => by rw [updateSpectra]
  | s :: rest, base, 0, h => by
      rw [Nat.add_zero] at h
      rw [updateSpectra, List.getD_cons_zero, List.getD_cons_zero, h]
      rfl
  | s :: rest, base, i + 1, h => by
      rw [updateSpectra, List.getD_cons_succ, List.getD_cons_succ]
      have harith : base + 1 + i = base + (i + 1) := by omega
      exact updateSpectra_unaffected affected recompute rest (base + 1) i (by rwa [harith])

/-- C9: during a parameter sweep, the bare spectrum of every subsystem not
in the affected-subsystem list for the swept parameter is left unchanged
across all points — it is never re-diagonalized — while listed
subsystems are the only ones recomputed at each point. -/
theorem sweep_unaffected_spectra (affected : List Nat) (recomputeAt : Nat → Nat → List ℚ)
    (init : List (List ℚ)) (i : Nat) (hi : affected.contains i = false) :
    ∀ pts : List Nat,
    (sweepSpectra affected recomputeAt pts init).getD i [] = init.getD i [] := by
  have hstep : ∀ (p : Nat) (spectra : List (List ℚ)),
      (updateSpectra affected (recomputeAt p) 0 spectra).getD i [] = spectra.getD i [] := by
    intro p spectra
    exact updateSpectra_unaffected affected (recomputeAt p) spectra 0 i
      (by rwa [Nat.zero_add])
  intro pts
  induction pts generalizing init with
  | nil => rfl
  | cons p rest ih =>
      rw [sweepSpectra, List.foldl_cons]
      have := ih (updateSpectra affected (recomputeAt p) 0 init)
      rw [sweepSpectra] at this
      rw [this, hstep]

/-- Concrete instance of `sweep_unaffected_spectra`: with only subsystem
`0` affected, subsystem `1`'s stored bare spectrum survives a three-point
sweep unchanged. -/
theorem sweep_unaffected_spectra_witness :
    (sweepSpectra [0] (fun _ _ => [(1 : ℚ)]) [0, 1, 2] [[5], [7]]).getD 1 [] =
      [(7 : ℚ)] := by
  have h := sweep_unaffected_spectra [0] (fun _ _ => [(1 : ℚ)]) [[5], [7]] 1
    (by decide) [0, 1, 2]
  rw [h]
  rfl
